import Mathlib

/-!
Verification of the repo-doc CLI (Go) against its design specification.

Strings from the Go source are modelled as `List Char`; Go `float64`
values are modelled as `ℚ` (all scores the program manipulates are exact
small rationals, and counters are exact integers, so field-by-field the
translation is faithful except for sub-ULP rounding that cannot occur at
the magnitudes the program produces); fallible operations return
`Option`/`Except`.  External collaborators (the GitHub REST client, the
generative-language classifier, the JSON decoder) are modelled as
explicit oracle parameters, so that theorems can quantify over every
possible behaviour of the collaborator.

The text scanners that model the regex replacements of
`cleanTextForAnalysis` consume at least one character per step, so they
are defined by structural recursion on a fuel argument initialised with
the length of the input; a congruence lemma per scanner shows the fuel
is irrelevant as long as it is at least the length of the input.
-/

namespace RepoDoc

/-- The backtick character (U+0060), written via its code point. -/
def btick : Char := Char.ofNat 96

/-- Whitespace as decided by Go `unicode.IsSpace` (used by `strings.Fields`
and `strings.TrimSpace`): ASCII space characters plus the Unicode
White_Space code points. -/
def isSpaceChar (c : Char) : Bool :=
  c = ' ' || c = '\t' || c = '\n' || c = Char.ofNat 0x0b || c = Char.ofNat 0x0c ||
  c = '\r' || c = Char.ofNat 0x85 || c = Char.ofNat 0xa0 || c = Char.ofNat 0x1680 ||
  (0x2000 ≤ c.toNat && c.toNat ≤ 0x200a) || c = Char.ofNat 0x2028 ||
  c = Char.ofNat 0x2029 || c = Char.ofNat 0x202f || c = Char.ofNat 0x205f ||
  c = Char.ofNat 0x3000

/-- Whitespace as decided by the RE2 character class `\s` (used by the
regex `https?://\S+` in `cleanTextForAnalysis`): exactly
tab, newline, form feed, carriage return and space. -/
def isSpaceRE (c : Char) : Bool :=
  c = '\t' || c = '\n' || c = Char.ofNat 0x0c || c = '\r' || c = ' '

/-- The character class `[#*\-_=~]` of the markdown-punctuation regex in
`cleanTextForAnalysis`. -/
def punctChar (c : Char) : Bool :=
  c = '#' || c = '*' || c = '-' || c = '_' || c = '=' || c = '~'

/-- `strings.Contains`: `w` occurs as a contiguous substring of `t`. -/
def isSubstr (w : List Char) : List Char → Bool
  | [] => decide (w = [])
  | c :: rest => w.isPrefixOf (c :: rest) || isSubstr w rest

/-- A code fence: three consecutive backticks. -/
def fence : List Char := [btick, btick, btick]

/-- Three consecutive backticks start here (the regex literal of a fence). -/
def tripPrefix (s : List Char) : Bool :=
  [btick, btick, btick].isPrefixOf s

/-- Index of the first position where three consecutive backticks start. -/
def findTriple : List Char → Option Nat
  | [] => none
  | c :: rest =>
    if tripPrefix (c :: rest) then some 0
    else (findTriple rest).map (· + 1)

/-- Fuelled scanner for the first step of `cleanTextForAnalysis`: the
regex `(?s)` of three backticks, `.*?`, three backticks, with
`ReplaceAllString(text, " ")`.  RE2 finds the leftmost opening fence
that has a closing fence, replaces the (non-greedy, hence shortest)
block with a single space, and resumes scanning after the
replacement. -/
def rcbGo : Nat → List Char → List Char
  | 0, t => t
  | _ + 1, [] => []
  | fuel + 1, c :: rest =>
    if tripPrefix (c :: rest) then
      match findTriple (rest.drop 2) with
      | some k => ' ' :: rcbGo fuel ((rest.drop 2).drop (k + 3))
      | none => c :: rcbGo fuel rest
    else c :: rcbGo fuel rest

/-- First step of `cleanTextForAnalysis`: removal of fenced code blocks. -/
def removeCodeBlocks (t : List Char) : List Char := rcbGo t.length t

/-- Fuelled scanner for the second step: the regex «backtick, nonempty
run of non-backticks, backtick» with `ReplaceAllString(text, " ")`. -/
def ricGo : Nat → List Char → List Char
  | 0, t => t
  | _ + 1, [] => []
  | fuel + 1, c :: rest =>
    if c = btick then
      if rest.takeWhile (fun x => x ≠ btick) ≠ [] ∧
          rest.drop (rest.takeWhile (fun x => x ≠ btick)).length ≠ [] then
        ' ' :: ricGo fuel ((rest.drop (rest.takeWhile (fun x => x ≠ btick)).length).drop 1)
      else c :: ricGo fuel rest
    else c :: ricGo fuel rest

/-- Second step of `cleanTextForAnalysis`: removal of inline code spans. -/
def removeInlineCode (t : List Char) : List Char := ricGo t.length t

/-- Length of the match of the regex `https?://\S+` anchored at the head
of the list, if any: the literal scheme prefix followed by a maximal
nonempty run of `\S` characters. -/
def urlMatchLen : List Char → Option Nat
  | 'h' :: 't' :: 't' :: 'p' :: 's' :: ':' :: '/' :: '/' :: c :: rest =>
    if isSpaceRE c then none
    else some (9 + (rest.takeWhile (fun x => ¬ isSpaceRE x)).length)
  | 'h' :: 't' :: 't' :: 'p' :: ':' :: '/' :: '/' :: c :: rest =>
    if isSpaceRE c then none
    else some (8 + (rest.takeWhile (fun x => ¬ isSpaceRE x)).length)
  | _ => none

/-- Fuelled scanner for the third step: the regex `https?://\S+` with
`ReplaceAllString(text, " ")`. -/
def rurlGo : Nat → List Char → List Char
  | 0, t => t
  | _ + 1, [] => []
  | fuel + 1, c :: rest =>
    match urlMatchLen (c :: rest) with
    | some n => ' ' :: rurlGo fuel ((c :: rest).drop n)
    | none => c :: rurlGo fuel rest

/-- Third step of `cleanTextForAnalysis`: removal of URLs. -/
def removeURLs (t : List Char) : List Char := rurlGo t.length t

/-- Fuelled scanner for the fourth step: the regex `[#*\-_=~]+` with
`ReplaceAllString(text, " ")`: each maximal run of markdown punctuation
becomes a single space. -/
def rpGo : Nat → List Char → List Char
  | 0, t => t
  | _ + 1, [] => []
  | fuel + 1, c :: rest =>
    if punctChar c then ' ' :: rpGo fuel (rest.dropWhile punctChar)
    else c :: rpGo fuel rest

/-- Fourth step of `cleanTextForAnalysis`: removal of punctuation runs. -/
def removePunct (t : List Char) : List Char := rpGo t.length t

/-- Fuelled scanner for `strings.Fields`: maximal runs of
non-whitespace characters. -/
def fieldsGo : Nat → List Char → List (List Char)
  | 0, _ => []
  | _ + 1, [] => []
  | fuel + 1, c :: rest =>
    if isSpaceChar c then fieldsGo fuel rest
    else (c :: rest.takeWhile (fun x => ¬ isSpaceChar x)) ::
      fieldsGo fuel (rest.dropWhile (fun x => ¬ isSpaceChar x))

/-- `strings.Fields`. -/
def fields (t : List Char) : List (List Char) := fieldsGo t.length t

/-- `strings.Join(words, " ")`. -/
def joinSp : List (List Char) → List Char
  | [] => []
  | [m] => m
  | m :: m' :: ms => m ++ ' ' :: joinSp (m' :: ms)

/-- `strings.TrimSpace`. -/
def trimSpace (t : List Char) : List Char :=
  ((t.dropWhile isSpaceChar).reverse.dropWhile isSpaceChar).reverse

/-- `cleanTextForAnalysis` (cmd/health.go): remove fenced code blocks,
inline code spans, URLs and markdown punctuation runs, then collapse
whitespace (`strings.Fields` + `strings.Join`) and trim. -/
def cleanTextForAnalysis (text : List Char) : List Char :=
  trimSpace (joinSp (fields (removePunct (removeURLs
    (removeInlineCode (removeCodeBlocks text))))))

/-! ## Sentiment classification (cmd/health.go) -/

/-- Outcome of one attempt to call the external generative model
(client creation, `GenerateContent`, candidate/part extraction and
response-text assembly): either some failure along the way, or the
assembled raw response text. -/
inductive GeminiOutcome where
  | failure
  | response (text : List Char)

/-- The external collaborators of `analyzeWithGemini`, as oracles:
`um` models `encoding/json.Unmarshal` into the
`{sentiment, score}` result struct, `oracle` models the generative
model call on the prompt built from the cleaned text, and `hasKey`
models whether `GEMINI_API_KEY` is set. -/
structure GeminiParams where
  um : List Char → Option (String × ℚ)
  oracle : List Char → GeminiOutcome
  hasKey : Bool

/-- `strings.Index(s, "{")`. -/
def indexOfChar (c : Char) : List Char → Option Nat
  | [] => none
  | d :: rest =>
    if d = c then some 0 else (indexOfChar c rest).map (· + 1)

/-- `strings.LastIndex(s, "}")`. -/
def lastIndexOfChar (c : Char) (t : List Char) : Option Nat :=
  (indexOfChar c t.reverse).map (fun i => t.length - 1 - i)

/-- Result of the brace-slicing step `responseText[jsonStart : jsonEnd+1]`
of `analyzeWithGemini`:
`indexErr` when either index is `-1` (the function returns an error);
`crash` when `jsonStart > jsonEnd + 1`, i.e. the last brace of `"}"`
kind sits more than one position before the first `"{"` — there the Go
slice expression raises a runtime slice-bounds panic that nothing in
the repository recovers, so the whole process dies. -/
inductive SliceResult where
  | ok (js : List Char)
  | indexErr
  | crash
deriving DecidableEq

/-- The brace-slicing step of `analyzeWithGemini`, with the Go
slice-bounds panic made explicit. -/
def jsonSlice (rt : List Char) : SliceResult :=
  match indexOfChar '{' rt, lastIndexOfChar '}' rt with
  | some s, some e =>
    if s ≤ e + 1 then SliceResult.ok ((rt.take (e + 1)).drop s)
    else SliceResult.crash
  | _, _ => SliceResult.indexErr

/-- Outcome of `analyzeWithGemini`: a validated `(sentiment, score)`
pair, an ordinary error (returned to the caller, which falls back to
neutral), or an unrecovered runtime panic that aborts the process. -/
inductive GeminiResult where
  | ok (v : String × ℚ)
  | error
  | crash
deriving DecidableEq

/-- `analyzeWithGemini` (cmd/health.go): clean the text, short-circuit
on empty cleaned text, then require the API key, call the model, cut
the first-brace/last-brace slice of the response (which can panic, see
`jsonSlice`), unmarshal it, and validate the label and the score
range.  The second component records whether the external model call
was made. -/
def analyzeWithGemini (p : GeminiParams) (text : List Char) :
    GeminiResult × Bool :=
  let cleanText := cleanTextForAnalysis text
  if cleanText = [] then (.ok ("neutral", 1/2), false)
  else if p.hasKey = false then (.error, false)
  else
    match p.oracle cleanText with
    | .failure => (.error, true)
    | .response rt =>
      match jsonSlice rt with
      | .indexErr => (.error, true)
      | .crash => (.crash, true)
      | .ok js =>
        match p.um js with
        | none => (.error, true)
        | some (s, sc) =>
          if s = "positive" ∨ s = "neutral" ∨ s = "negative" then
            if sc < 0 ∨ sc > 1 then (.error, true)
            else (.ok (s, sc), true)
          else (.error, true)

/-- `analyzeSentiment` (cmd/health.go) together with the record of
whether the external model was consulted: empty text short-circuits to
`("neutral", 0.5)`; any error returned by `analyzeWithGemini` falls
back to `("neutral", 0.5)`; a panic propagates (`none`: the run
aborts). -/
def analyzeSentimentFull (p : GeminiParams) (text : List Char) :
    Option ((String × ℚ) × Bool) :=
  if text = [] then some (("neutral", 1/2), false)
  else
    match analyzeWithGemini p text with
    | (.crash, _) => none
    | (.error, inv) => some (("neutral", 1/2), inv)
    | (.ok v, inv) => some (v, inv)

/-- `analyzeSentiment` (cmd/health.go): the `(sentiment, score)` pair
actually recorded for a message, or `none` when the unrecovered panic
kills the run. -/
def analyzeSentiment (p : GeminiParams) (text : List Char) : Option (String × ℚ) :=
  (analyzeSentimentFull p text).map Prod.fst

/-! ## Bot filter (cmd/health.go) -/

/-- The fixed deny-list of `isBotComment`, verbatim from the source
(including the two entries that spell regex escapes into the plain
substring match). -/
def botNames : List String :=
  ["dependabot", "github-actions", "github[bot]", "actions-user", "actions\\[bot\\]",
   "travis", "circleci", "jenkins", "gitlab-ci", "azure-pipelines", "circleci[bot]",
   "codecov", "codeclimate", "sonarcloud", "snyk-bot", "dependabot-preview",
   "bot", "ci", "cd", "deploy", "test", "automation", "bors-", "tldr-",
   "aws-", "gcp-", "azure-", "google-cloud", "aws-sdk",
   "renovate", "greenkeeper", "hound", "stale", "mergify", "allcontributors",
   "code-rabbit", "app/", "app\\/"]

/-- `isBotComment` (cmd/health.go): lowercase the author
(`strings.ToLower`, modelled per character; the difference to Go is
confined to non-ASCII letters), test the deny-list substrings, then the
four suffix checks. -/
def isBotComment (author : List Char) : Bool :=
  let a := author.map Char.toLower
  botNames.any (fun b => isSubstr b.toList a) ||
  "[bot]".toList.isSuffixOf a || "-bot".toList.isSuffixOf a ||
  "-ci".toList.isSuffixOf a || "-deploy".toList.isSuffixOf a

/-! ## Data model (internal/analyzer/analyzer.go, cmd/health.go) -/

/-- `DiscussionMessage`. -/
structure DiscussionMessage where
  Author : List Char
  Body : List Char
  CreatedAt : List Char
  IsPRBody : Bool
deriving DecidableEq

/-- `PRDiscussion`. -/
structure PRDiscussion where
  PRNumber : Nat
  Title : List Char
  Author : List Char
  State : String
  Merged : Bool
  Messages : List DiscussionMessage
deriving DecidableEq

/-- `MessageAnalysis`. -/
structure MessageAnalysis where
  Content : List Char
  Sentiment : String
  Score : ℚ
deriving DecidableEq

/-- `HealthReport`.  Counters that Go stores in `float64` fields
(`PositiveScore`, `NegativeScore`, `NeutralScore`) are modelled as `ℚ`;
`PRCount`/`MessageCount` are `int` counters, modelled as `Nat`. -/
structure HealthReport where
  PRCount : Nat
  MessageCount : Nat
  PositiveScore : ℚ
  NegativeScore : ℚ
  NeutralScore : ℚ
  AverageSentiment : ℚ
  Messages : List MessageAnalysis
deriving DecidableEq

/-! ## Health aggregation (cmd/health.go, analyzePRHealth) -/

/-- A message is analyzed iff its body is nonempty and its author does
not look like a bot. -/
def eligibleMsg (m : DiscussionMessage) : Bool :=
  ¬ (m.Body = [] ∨ isBotComment m.Author)

/-- One iteration of the message loop of `analyzePRHealth`: the
accumulator is the report under construction paired with the running
`totalScore`, or `none` once an unrecovered classifier panic has
killed the run (nothing after that point executes).  Skips empty
bodies and bot comments; classifies the message; re-derives a label
from the score if the label is empty (defensive branch in the source);
appends the `MessageAnalysis` and bumps exactly one of the three
counters. -/
def processMsg (p : GeminiParams) :
    Option (HealthReport × ℚ) → DiscussionMessage → Option (HealthReport × ℚ)
  | none, _ => none
  | some (r, total), m =>
    if m.Body = [] ∨ isBotComment m.Author then some (r, total)
    else
      match analyzeSentiment p m.Body with
      | none => none
      | some sres =>
        let lbl :=
          if sres.1 = "" then
            if sres.2 > 7/10 then "positive"
            else if sres.2 < 2/5 then "negative"
            else "neutral"
          else sres.1
        some ({ r with
            Messages := r.Messages ++ [⟨m.Body, lbl, sres.2⟩],
            PositiveScore := if lbl = "positive" then r.PositiveScore + 1
              else r.PositiveScore,
            NegativeScore := if lbl = "negative" then r.NegativeScore + 1
              else r.NegativeScore,
            NeutralScore := if lbl ≠ "positive" ∧ lbl ≠ "negative" then r.NeutralScore + 1
              else r.NeutralScore },
          total + sres.2)

/-- `analyzePRHealth` (cmd/health.go): fold all messages of all
discussions through `processMsg`, then set `MessageCount` to the number
of analyzed messages and compute the average sentiment.  `none` means
an unrecovered classifier panic aborted the run and no report was
produced. -/
def analyzePRHealth (p : GeminiParams) (ds : List PRDiscussion) :
    Option HealthReport :=
  let init : HealthReport × ℚ :=
    ({ PRCount := ds.length, MessageCount := 0, PositiveScore := 0,
       NegativeScore := 0, NeutralScore := 0, AverageSentiment := 0,
       Messages := [] }, 0)
  match ds.foldl (fun acc d => d.Messages.foldl (processMsg p) acc) (some init) with
  | none => none
  | some (r, total) =>
    let mc := r.Messages.length
    some { r with
        MessageCount := mc,
        AverageSentiment := if mc > 0 then total / (mc : ℚ) else 0 }

/-- Number of messages `analyzePRHealth` analyzes (nonempty body,
non-bot author), across all discussions. -/
def eligibleCount (ds : List PRDiscussion) : Nat :=
  (ds.map (fun d => (d.Messages.filter eligibleMsg).length)).sum

/-! ## Health report rendering (cmd/health.go, displayHealthReport) -/

/-- The verdict ladder of `displayHealthReport` (the `switch` at the end
of the function), with the emoji prefixes of the printed lines elided. -/
def healthVerdict (r : HealthReport) : String :=
  if r.MessageCount = 0 then "No messages to analyze"
  else if r.NegativeScore / (r.MessageCount : ℚ) > 1/2 then
    "Needs attention - High level of negative sentiment"
  else if r.PositiveScore / (r.MessageCount : ℚ) > 7/10 then
    "Excellent health - Very positive discussions"
  else if r.AverageSentiment > 3/5 then
    "Good health - Generally positive discussions"
  else if r.NeutralScore / (r.MessageCount : ℚ) > 7/10 then
    "Neutral - Mostly technical discussions"
  else "Mixed sentiment - Review recommended"

/-- One line of the rendering of `displayHealthReport`, with the purely
decorative parts (emojis, separator rules) elided. -/
inductive RLine where
  | banner
  | header (prCount msgCount : Nat)
  | pct (kind : String) (value : ℚ)
  | avg (value : ℚ)
  | sample (sentiment : String) (score : ℚ) (content : List Char)
  | verdict (text : String)
deriving DecidableEq

/-- The sample-message truncation of `displayHealthReport`
(`content[:97] + "..."` when longer than 100; Go measures bytes, the
model measures characters). -/
def truncateContent (c : List Char) : List Char :=
  if c.length > 100 then c.take 97 ++ "...".toList else c

/-- `displayHealthReport` (cmd/health.go) as the list of lines it
prints.  When `MessageCount` is zero the function prints the single
banner `"No messages found to analyze."` and returns; otherwise it
prints the header, the three percentage lines (computed under a
`MessageCount > 0` guard with zero defaults), the average, up to three
sample messages, and the verdict from the ladder. -/
def displayHealthReport (r : HealthReport) : List RLine :=
  if r.MessageCount = 0 then [RLine.banner]
  else
    let total : ℚ := (r.MessageCount : ℚ)
    let positivePct : ℚ := if r.MessageCount > 0 then r.PositiveScore / total * 100 else 0
    let neutralPct : ℚ := if r.MessageCount > 0 then r.NeutralScore / total * 100 else 0
    let negativePct : ℚ := if r.MessageCount > 0 then r.NegativeScore / total * 100 else 0
    [RLine.header r.PRCount r.MessageCount,
     RLine.pct "positive" positivePct,
     RLine.pct "neutral" neutralPct,
     RLine.pct "negative" negativePct,
     RLine.avg r.AverageSentiment] ++
    (r.Messages.take 3).map
      (fun m => RLine.sample m.Sentiment m.Score (truncateContent m.Content)) ++
    [RLine.verdict (healthVerdict r)]

/-! ## Repository locator and PR fetching (internal/analyzer/analyzer.go) -/

/-- `strings.TrimPrefix`. -/
def trimPrefix (pre t : List Char) : List Char :=
  if pre.isPrefixOf t then t.drop pre.length else t

/-- `ParseRepoURL` (internal/analyzer/analyzer.go): the short
`owner/repo` branch (only when the input does not mention
`github.com`, contains a slash and splits into exactly two parts),
otherwise scheme/host stripping followed by a split requiring at least
two parts. -/
def ParseRepoURL (url : List Char) : Option (List Char × List Char) :=
  let short : Option (List Char × List Char) :=
    if ¬ isSubstr "github.com".toList url ∧ isSubstr "/".toList url then
      match url.splitOn '/' with
      | [a, b] => some (a, b)
      | _ => none
    else none
  match short with
  | some r => some r
  | none =>
    let u := trimPrefix "https://".toList url
    let u := trimPrefix "http://".toList u
    let u := trimPrefix "github.com/".toList u
    match u.splitOn '/' with
    | a :: b :: _ => some (a, b)
    | _ => none

/-- `PRInfo`. -/
structure PRInfo where
  Number : Nat
  Title : List Char
  State : String
  Author : List Char
  Merged : Bool
deriving DecidableEq

/-- One pull request as returned by the GitHub list endpoint, with the
fields `FetchPullRequests` reads: `GetState`, `GetMergedAt().IsZero()`,
`User.Login`, `GetNumber`, `GetTitle`. -/
structure RawPR where
  number : Nat
  title : List Char
  state : String
  userLogin : Option (List Char)
  mergedAtIsZero : Bool
deriving DecidableEq

/-- The remote GitHub API as seen by the analyzer: the pull-request
list endpoint (`PullRequests.List`, first page with `PerPage = limit`)
and the dedicated merge-check endpoint (`PullRequests.IsMerged`,
`none` modelling a call error). -/
structure GitHubAPI where
  pulls : List RawPR
  mergedEndpoint : Nat → Option Bool

/-- The per-PR conversion inside the loop of `FetchPullRequests`:
author defaults to empty, and
`isMerged := pr.GetState() == "closed" && !pr.GetMergedAt().IsZero()`. -/
def mkPRInfo (pr : RawPR) : PRInfo :=
  { Number := pr.number,
    Title := pr.title,
    State := pr.state,
    Author := pr.userLogin.getD [],
    Merged := pr.state = "closed" ∧ pr.mergedAtIsZero = false }

/-- `FetchPullRequests` (internal/analyzer/analyzer.go): iterate the
listed pull requests, stopping once `limit` infos are collected. -/
def FetchPullRequests (api : GitHubAPI) (limit : Nat) : List PRInfo :=
  (api.pulls.take limit).map mkPRInfo

/-- `IsMerged` (internal/analyzer/analyzer.go): ask the dedicated
endpoint; on error assume not merged. -/
def IsMerged (api : GitHubAPI) (prNumber : Nat) : Bool :=
  (api.mergedEndpoint prNumber).getD false

/-! ## Command-level limit handling (cmd of info and health) -/

/-- `determinePRLimit` of the info command: `0` when `--prs` was not
given, the default `5` for the bare-flag sentinel `-1`, the explicit
value otherwise. -/
def determinePRLimit (prsFlagSet : Bool) (prs : Int) : Int :=
  if prsFlagSet = false then 0
  else if prs = -1 then 5
  else prs

/-- Externally visible steps of `runAnalyze` after URL parsing. -/
inductive InfoEffect where
  | fatalLimit
  | fetchRepoInfo
  | fetchPRs
  | display
deriving DecidableEq

/-- The effect sequence of `runAnalyze` (info command) after a
successful URL parse: the `prLimit > 100` check aborts before any
network call; otherwise the repository is fetched, pull requests are
fetched only for a positive limit, and the result is displayed. -/
def runAnalyzeEffects (prsFlagSet : Bool) (prs : Int) : List InfoEffect :=
  let prLimit := determinePRLimit prsFlagSet prs
  if prLimit > 100 then [InfoEffect.fatalLimit]
  else [InfoEffect.fetchRepoInfo] ++
    (if prLimit > 0 then [InfoEffect.fetchPRs] else []) ++
    [InfoEffect.display]

/-- The limit normalisation of `runHealthAnalysis` (cmd/health.go):
out-of-range values are replaced by the default 5. -/
def runHealthLimit (healthLimit : Int) : Int :=
  if healthLimit < 1 ∨ healthLimit > 20 then 5 else healthLimit

/-- A classifier-parameter fixture on which every external call fails:
the model call errors (covering timeouts and transport failures) and
the JSON decoder rejects everything (covering malformed responses); the
API key is present, so the failure is genuinely in the external call. -/
def failingParams : GeminiParams :=
  { um := fun _ => none, oracle := fun _ => GeminiOutcome.failure, hasKey := true }

/-- A classifier-parameter fixture whose model call succeeds but
returns the response text `"}x{"`: its last closing brace sits two
positions before its first opening brace, so the slice
`responseText[jsonStart : jsonEnd+1]` becomes `"}x{"[2:1]` — a
slice-bounds panic in Go. -/
def crashParams : GeminiParams :=
  { um := fun _ => none,
    oracle := fun _ => GeminiOutcome.response "\x7dx\x7b".toList,
    hasKey := true }

/-! ## Basic equations and sanity checks for the scanner definitions -/

theorem rcbGo_congr : ∀ f₁ f₂ t, t.length ≤ f₁ → t.length ≤ f₂ →
    rcbGo f₁ t = rcbGo f₂ t := by
  intro f₁
  induction f₁ with
  | zero =>
    intro f₂ t h1 _
    have ht : t = [] := List.eq_nil_of_length_eq_zero (Nat.le_zero.mp h1)
    cases f₂ <;> simp [ht, rcbGo]
  | succ f₁ ih =>
    intro f₂ t h1 h2
    cases t with
    | nil => cases f₂ <;> simp [rcbGo]
    | cons c rest =>
      cases f₂ with
      | zero => simp at h2
      | succ f₂ =>
        simp only [rcbGo]
        split
        · split
          · refine congrArg _ (ih f₂ _ ?_ ?_) <;>
              simp only [List.length_cons, List.length_drop] at * <;> omega
          · refine congrArg _ (ih f₂ _ ?_ ?_) <;>
              simp only [List.length_cons] at * <;> omega
        · refine congrArg _ (ih f₂ _ ?_ ?_) <;>
            simp only [List.length_cons] at * <;> omega

theorem removeCodeBlocks_nil : removeCodeBlocks [] = [] := rfl

theorem removeCodeBlocks_cons (c : Char) (rest : List Char) :
    removeCodeBlocks (c :: rest) =
      if tripPrefix (c :: rest) then
        match findTriple (rest.drop 2) with
        | some k => ' ' :: removeCodeBlocks ((rest.drop 2).drop (k + 3))
        | none => c :: removeCodeBlocks rest
      else c :: removeCodeBlocks rest := by
  show rcbGo (rest.length + 1) (c :: rest) = _
  simp only [rcbGo, removeCodeBlocks]
  split
  · split
    · exact congrArg _ (rcbGo_congr _ _ _
        (by simp only [List.length_drop]; omega) le_rfl)
    · exact congrArg _ (rcbGo_congr _ _ _ le_rfl le_rfl)
  · exact congrArg _ (rcbGo_congr _ _ _ le_rfl le_rfl)

theorem ricGo_congr : ∀ f₁ f₂ t, t.length ≤ f₁ → t.length ≤ f₂ →
    ricGo f₁ t = ricGo f₂ t := by
  intro f₁
  induction f₁ with
  | zero =>
    intro f₂ t h1 _
    have ht : t = [] := List.eq_nil_of_length_eq_zero (Nat.le_zero.mp h1)
    cases f₂ <;> simp [ht, ricGo]
  | succ f₁ ih =>
    intro f₂ t h1 h2
    cases t with
    | nil => cases f₂ <;> simp [ricGo]
    | cons c rest =>
      cases f₂ with
      | zero => simp at h2
      | succ f₂ =>
        simp only [ricGo]
        split
        · split
          · refine congrArg _ (ih f₂ _ ?_ ?_) <;>
              simp only [List.length_cons, List.length_drop] at * <;> omega
          · refine congrArg _ (ih f₂ _ ?_ ?_) <;>
              simp only [List.length_cons] at * <;> omega
        · refine congrArg _ (ih f₂ _ ?_ ?_) <;>
            simp only [List.length_cons] at * <;> omega

theorem removeInlineCode_nil : removeInlineCode [] = [] := rfl

theorem removeInlineCode_cons (c : Char) (rest : List Char) :
    removeInlineCode (c :: rest) =
      if c = btick then
        if rest.takeWhile (fun x => x ≠ btick) ≠ [] ∧
            rest.drop (rest.takeWhile (fun x => x ≠ btick)).length ≠ [] then
          ' ' :: removeInlineCode
            ((rest.drop (rest.takeWhile (fun x => x ≠ btick)).length).drop 1)
        else c :: removeInlineCode rest
      else c :: removeInlineCode rest := by
  show ricGo (rest.length + 1) (c :: rest) = _
  simp only [ricGo, removeInlineCode]
  split
  · split
    · exact congrArg _ (ricGo_congr _ _ _
        (by simp only [List.length_drop]; omega) le_rfl)
    · exact congrArg _ (ricGo_congr _ _ _ le_rfl le_rfl)
  · exact congrArg _ (ricGo_congr _ _ _ le_rfl le_rfl)

theorem urlMatchLen_ge {t : List Char} {n : Nat} (h : urlMatchLen t = some n) :
    8 ≤ n := by
  unfold urlMatchLen at h
  split at h
  · split at h
    · exact absurd h (by simp)
    · injection h with h'; omega
  · split at h
    · exact absurd h (by simp)
    · injection h with h'; omega
  · exact absurd h (by simp)

theorem rurlGo_congr : ∀ f₁ f₂ t, t.length ≤ f₁ → t.length ≤ f₂ →
    rurlGo f₁ t = rurlGo f₂ t := by
  intro f₁
  induction f₁ with
  | zero =>
    intro f₂ t h1 _
    have ht : t = [] := List.eq_nil_of_length_eq_zero (Nat.le_zero.mp h1)
    cases f₂ <;> simp [ht, rurlGo]
  | succ f₁ ih =>
    intro f₂ t h1 h2
    cases t with
    | nil => cases f₂ <;> simp [rurlGo]
    | cons c rest =>
      cases f₂ with
      | zero => simp at h2
      | succ f₂ =>
        simp only [rurlGo]
        split
        · next n hmatch =>
          have hge := urlMatchLen_ge hmatch
          refine congrArg _ (ih f₂ _ ?_ ?_) <;>
            simp only [List.length_cons, List.length_drop] at * <;> omega
        · refine congrArg _ (ih f₂ _ ?_ ?_) <;>
            simp only [List.length_cons] at * <;> omega

theorem removeURLs_nil : removeURLs [] = [] := rfl

theorem removeURLs_cons (c : Char) (rest : List Char) :
    removeURLs (c :: rest) =
      match urlMatchLen (c :: rest) with
      | some n => ' ' :: removeURLs ((c :: rest).drop n)
      | none => c :: removeURLs rest := by
  show rurlGo (rest.length + 1) (c :: rest) = _
  simp only [rurlGo, removeURLs]
  split
  · next n hmatch =>
    have hge := urlMatchLen_ge hmatch
    exact congrArg _ (rurlGo_congr _ _ _
      (by simp only [List.length_cons, List.length_drop]; omega) le_rfl)
  · exact congrArg _ (rurlGo_congr _ _ _ le_rfl le_rfl)

theorem rpGo_congr : ∀ f₁ f₂ t, t.length ≤ f₁ → t.length ≤ f₂ →
    rpGo f₁ t = rpGo f₂ t := by
  intro f₁
  induction f₁ with
  | zero =>
    intro f₂ t h1 _
    have ht : t = [] := List.eq_nil_of_length_eq_zero (Nat.le_zero.mp h1)
    cases f₂ <;> simp [ht, rpGo]
  | succ f₁ ih =>
    intro f₂ t h1 h2
    cases t with
    | nil => cases f₂ <;> simp [rpGo]
    | cons c rest =>
      cases f₂ with
      | zero => simp at h2
      | succ f₂ =>
        have hdw := (List.dropWhile_suffix (l := rest) punctChar).length_le
        simp only [rpGo]
        split
        · refine congrArg _ (ih f₂ _ ?_ ?_) <;>
            simp only [List.length_cons] at * <;> omega
        · refine congrArg _ (ih f₂ _ ?_ ?_) <;>
            simp only [List.length_cons] at * <;> omega

theorem removePunct_nil : removePunct [] = [] := rfl

theorem removePunct_cons (c : Char) (rest : List Char) :
    removePunct (c :: rest) =
      if punctChar c then ' ' :: removePunct (rest.dropWhile punctChar)
      else c :: removePunct rest := by
  show rpGo (rest.length + 1) (c :: rest) = _
  have hdw := (List.dropWhile_suffix (l := rest) punctChar).length_le
  simp only [rpGo, removePunct]
  split
  · exact congrArg _ (rpGo_congr _ _ _ (by omega) le_rfl)
  · exact congrArg _ (rpGo_congr _ _ _ le_rfl le_rfl)

theorem fieldsGo_congr : ∀ f₁ f₂ t, t.length ≤ f₁ → t.length ≤ f₂ →
    fieldsGo f₁ t = fieldsGo f₂ t := by
  intro f₁
  induction f₁ with
  | zero =>
    intro f₂ t h1 _
    have ht : t = [] := List.eq_nil_of_length_eq_zero (Nat.le_zero.mp h1)
    cases f₂ <;> simp [ht, fieldsGo]
  | succ f₁ ih =>
    intro f₂ t h1 h2
    cases t with
    | nil => cases f₂ <;> simp [fieldsGo]
    | cons c rest =>
      cases f₂ with
      | zero => simp at h2
      | succ f₂ =>
        have hdw := (List.dropWhile_suffix (l := rest)
          (fun x => ¬ isSpaceChar x)).length_le
        simp only [fieldsGo]
        split
        · refine ih f₂ _ ?_ ?_ <;> simp only [List.length_cons] at * <;> omega
        · refine congrArg _ (ih f₂ _ ?_ ?_) <;>
            simp only [List.length_cons] at * <;> omega

theorem fields_nil : fields [] = [] := rfl

theorem fields_cons (c : Char) (rest : List Char) :
    fields (c :: rest) =
      if isSpaceChar c then fields rest
      else (c :: rest.takeWhile (fun x => ¬ isSpaceChar x)) ::
        fields (rest.dropWhile (fun x => ¬ isSpaceChar x)) := by
  show fieldsGo (rest.length + 1) (c :: rest) = _
  have hdw := (List.dropWhile_suffix (l := rest)
    (fun x => ¬ isSpaceChar x)).length_le
  simp only [fieldsGo, fields]
  split
  · exact fieldsGo_congr _ _ _ le_rfl le_rfl
  · exact congrArg _ (fieldsGo_congr _ _ _ (by omega) le_rfl)

example : cleanTextForAnalysis "abc ```abc```".toList = "abc".toList := by decide
example : cleanTextForAnalysis "``b``".toList = (btick :: ' ' :: [btick]) := by decide
example : cleanTextForAnalysis (btick :: ' ' :: [btick]) = [] := by decide
example : cleanTextForAnalysis "  Hello -- # world https://x.y z `code` ".toList =
    "Hello world z".toList := by decide
example : cleanTextForAnalysis "```x```".toList = [] := by decide

example : isBotComment "dependabot[bot]".toList = true := by decide
example : isBotComment "alice".toList = false := by decide

example : ParseRepoURL "golang/go".toList = some ("golang".toList, "go".toList) := by decide
example : ParseRepoURL "https://github.com/golang/go".toList =
    some ("golang".toList, "go".toList) := by decide

/-! ## The code-fence removal equation -/

theorem isSubstr_iff (w : List Char) : ∀ t, isSubstr w t = true ↔ w <:+: t := by
  intro t
  induction t with
  | nil =>
    simp only [isSubstr, decide_eq_true_eq]
    constructor
    · rintro rfl; exact List.infix_refl []
    · intro h; exact List.eq_nil_of_infix_nil h
  | cons c rest ih =>
    simp only [isSubstr, Bool.or_eq_true, List.isPrefixOf_iff_prefix, ih,
      List.infix_cons_iff]

theorem tripPrefix_iff (s : List Char) : tripPrefix s = true ↔ fence <+: s := by
  simp [tripPrefix, fence, List.isPrefixOf_iff_prefix]

theorem fence_prefix_glue (u X : List Char) (hu : u ≠ [])
    (h : fence <+: u ++ (fence ++ X)) : fence <:+: u ++ [btick, btick] := by
  obtain ⟨t, ht⟩ := h
  match u, hu with
  | [a], _ =>
    simp only [fence, List.cons_append, List.nil_append, List.cons.injEq] at ht
    obtain ⟨rfl, -⟩ := ht
    exact List.infix_refl _
  | [a, b], _ =>
    simp only [fence, List.cons_append, List.nil_append, List.cons.injEq] at ht
    obtain ⟨rfl, rfl, -⟩ := ht
    exact ⟨[], [btick], rfl⟩
  | a :: b :: c :: u', _ =>
    simp only [fence, List.cons_append, List.nil_append, List.cons.injEq] at ht
    obtain ⟨rfl, rfl, rfl, -⟩ := ht
    exact (List.prefix_append _ _).isInfix

theorem findTriple_at (mid : List Char) (rest : List Char)
    (h : ¬ fence <:+: mid ++ [btick, btick]) :
    findTriple (mid ++ (fence ++ rest)) = some mid.length := by
  induction mid with
  | nil =>
    rw [show ([] : List Char) ++ (fence ++ rest) =
      btick :: (btick :: btick :: rest) from by simp [fence]]
    rw [findTriple]
    rw [if_pos (by simp [tripPrefix, List.isPrefixOf])]
    simp
  | cons c mid' ih =>
    have htp : tripPrefix (c :: (mid' ++ (fence ++ rest))) = false := by
      rw [Bool.eq_false_iff]
      intro htp
      rw [tripPrefix_iff] at htp
      have := fence_prefix_glue (c :: mid') rest (by simp)
        (by simpa [List.append_assoc] using htp)
      exact h this
    have h' : ¬ fence <:+: mid' ++ [btick, btick] := fun hh =>
      h (by simpa [List.cons_append] using List.infix_cons (a := c) hh)
    rw [List.cons_append, findTriple, if_neg (by simp [htp]), ih h']
    simp

theorem removeCodeBlocks_fence : ∀ pre : List Char,
    ¬ fence <:+: pre ++ [btick, btick] →
    ∀ mid post : List Char, ¬ fence <:+: mid ++ [btick, btick] →
    removeCodeBlocks (pre ++ fence ++ mid ++ fence ++ post) =
      pre ++ ' ' :: removeCodeBlocks post := by
  intro pre
  induction pre with
  | nil =>
    intro _ mid post h2
    rw [show ([] : List Char) ++ fence ++ mid ++ fence ++ post =
      btick :: (btick :: btick :: (mid ++ (fence ++ post))) from by
        simp [fence, List.append_assoc]]
    rw [removeCodeBlocks_cons]
    rw [if_pos (by simp [tripPrefix, List.isPrefixOf])]
    have hdrop : (btick :: btick :: (mid ++ (fence ++ post))).drop 2 =
        mid ++ (fence ++ post) := rfl
    have hpost : (mid ++ (fence ++ post)).drop (mid.length + 3) = post := by
      rw [show mid ++ (fence ++ post) = (mid ++ fence) ++ post from by
        simp [List.append_assoc]]
      rw [show mid.length + 3 = (mid ++ fence).length from by simp [fence]]
      exact List.drop_left _ _
    rw [hdrop, findTriple_at mid post h2]
    show ' ' :: removeCodeBlocks ((mid ++ (fence ++ post)).drop (mid.length + 3)) =
      [] ++ ' ' :: removeCodeBlocks post
    rw [hpost]
    simp
  | cons c pre' ih =>
    intro h1 mid post h2
    rw [show (c :: pre') ++ fence ++ mid ++ fence ++ post =
      c :: (pre' ++ fence ++ mid ++ fence ++ post) from by simp]
    rw [removeCodeBlocks_cons]
    have htp : tripPrefix (c :: (pre' ++ fence ++ mid ++ fence ++ post)) = false := by
      rw [Bool.eq_false_iff]
      intro htp
      rw [tripPrefix_iff] at htp
      have := fence_prefix_glue (c :: pre') (mid ++ fence ++ post) (by simp)
        (by simpa [List.append_assoc] using htp)
      exact h1 this
    rw [if_neg (by simpa [List.append_assoc] using htp)]
    have h1' : ¬ fence <:+: pre' ++ [btick, btick] := fun hh =>
      h1 (by simpa [List.cons_append] using List.infix_cons (a := c) hh)
    rw [ih h1' mid post h2]
    simp

/-! ## Normalizer idempotence machinery -/

theorem tripPrefix_head {c : Char} {rest : List Char}
    (h : tripPrefix (c :: rest) = true) : c = btick := by
  rw [tripPrefix_iff] at h
  obtain ⟨t, ht⟩ := h
  simp only [fence, List.cons_append, List.nil_append, List.cons.injEq] at ht
  exact ht.1.symm

theorem removeCodeBlocks_id_aux : ∀ n t, t.length ≤ n →
    (∀ c ∈ t, c ≠ btick) → removeCodeBlocks t = t := by
  intro n
  induction n with
  | zero =>
    intro t ht _
    rw [List.eq_nil_of_length_eq_zero (Nat.le_zero.mp ht)]
    rfl
  | succ n ih =>
    intro t ht hb
    cases t with
    | nil => rfl
    | cons c rest =>
      rw [removeCodeBlocks_cons]
      have htp : tripPrefix (c :: rest) = false := by
        rw [Bool.eq_false_iff]
        intro htp
        exact hb c (List.mem_cons_self c rest) (tripPrefix_head htp)
      rw [if_neg (by simp [htp])]
      rw [ih rest (by simp only [List.length_cons] at ht; omega)
        (fun a ha => hb a (List.mem_cons_of_mem c ha))]

theorem removeCodeBlocks_id (t : List Char) (h : ∀ c ∈ t, c ≠ btick) :
    removeCodeBlocks t = t :=
  removeCodeBlocks_id_aux t.length t le_rfl h

theorem removeInlineCode_id_aux : ∀ n t, t.length ≤ n →
    (∀ c ∈ t, c ≠ btick) → removeInlineCode t = t := by
  intro n
  induction n with
  | zero =>
    intro t ht _
    rw [List.eq_nil_of_length_eq_zero (Nat.le_zero.mp ht)]
    rfl
  | succ n ih =>
    intro t ht hb
    cases t with
    | nil => rfl
    | cons c rest =>
      rw [removeInlineCode_cons]
      rw [if_neg (hb c (List.mem_cons_self c rest))]
      rw [ih rest (by simp only [List.length_cons] at ht; omega)
        (fun a ha => hb a (List.mem_cons_of_mem c ha))]

theorem removeInlineCode_id (t : List Char) (h : ∀ c ∈ t, c ≠ btick) :
    removeInlineCode t = t :=
  removeInlineCode_id_aux t.length t le_rfl h

theorem urlMatchLen_space (l : List Char) : urlMatchLen (' ' :: l) = none := rfl

theorem urlMatch_some_shape {s : List Char} (h : (urlMatchLen s).isSome = true) :
    ∃ d r, isSpaceRE d = false ∧
      (s = 'h' :: 't' :: 't' :: 'p' :: 's' :: ':' :: '/' :: '/' :: d :: r ∨
       s = 'h' :: 't' :: 't' :: 'p' :: ':' :: '/' :: '/' :: d :: r) := by
  unfold urlMatchLen at h
  split at h
  · next c rest =>
    split at h
    · simp at h
    · exact ⟨c, rest, by simp_all, Or.inl rfl⟩
  · next c rest =>
    split at h
    · simp at h
    · exact ⟨c, rest, by simp_all, Or.inr rfl⟩
  · simp at h

theorem urlMatch_shape_some_https {d : Char} {r : List Char} (hd : isSpaceRE d = false) :
    (urlMatchLen ('h' :: 't' :: 't' :: 'p' :: 's' :: ':' :: '/' :: '/' :: d :: r)).isSome
      = true := by
  simp [urlMatchLen, hd]

theorem urlMatch_shape_some_http {d : Char} {r : List Char} (hd : isSpaceRE d = false) :
    (urlMatchLen ('h' :: 't' :: 't' :: 'p' :: ':' :: '/' :: '/' :: d :: r)).isSome
      = true := by
  simp [urlMatchLen, hd]

theorem not_space_of_not_spaceRE {d : Char} (hd : isSpaceRE d = false) : d ≠ ' ' := by
  intro h
  rw [h] at hd
  simp [isSpaceRE] at hd

theorem prefix_of_removeURLs_aux : ∀ n t, t.length ≤ n →
    ∀ w : List Char, (∀ a ∈ w, a ≠ ' ') → w <+: removeURLs t → w <+: t := by
  intro n
  induction n with
  | zero =>
    intro t ht w _ hp
    have h0 : t = [] := List.eq_nil_of_length_eq_zero (Nat.le_zero.mp ht)
    subst h0
    rwa [removeURLs_nil] at hp
  | succ n ih =>
    intro t ht w hw hp
    cases t with
    | nil => rwa [removeURLs_nil] at hp
    | cons c rest =>
      rw [removeURLs_cons] at hp
      cases hm : urlMatchLen (c :: rest) with
      | some m =>
        rw [hm] at hp
        cases w with
        | nil => exact List.nil_prefix
        | cons d w' =>
          rw [List.cons_prefix_cons] at hp
          exact absurd hp.1 (hw d (List.mem_cons_self d w'))
      | none =>
        rw [hm] at hp
        cases w with
        | nil => exact List.nil_prefix
        | cons d w' =>
          rw [List.cons_prefix_cons] at hp ⊢
          refine ⟨hp.1, ih rest (by simp only [List.length_cons] at ht; omega) w'
            (fun a ha => hw a (List.mem_cons_of_mem d ha)) hp.2⟩

theorem prefix_of_removeURLs (t : List Char) {w : List Char}
    (hw : ∀ a ∈ w, a ≠ ' ') (hp : w <+: removeURLs t) : w <+: t :=
  prefix_of_removeURLs_aux t.length t le_rfl w hw hp

theorem prefix_of_removePunct_aux : ∀ n t, t.length ≤ n →
    ∀ w : List Char, (∀ a ∈ w, a ≠ ' ') → w <+: removePunct t → w <+: t := by
  intro n
  induction n with
  | zero =>
    intro t ht w _ hp
    have h0 : t = [] := List.eq_nil_of_length_eq_zero (Nat.le_zero.mp ht)
    subst h0
    rwa [removePunct_nil] at hp
  | succ n ih =>
    intro t ht w hw hp
    cases t with
    | nil => rwa [removePunct_nil] at hp
    | cons c rest =>
      rw [removePunct_cons] at hp
      by_cases hc : punctChar c = true
      · rw [if_pos hc] at hp
        cases w with
        | nil => exact List.nil_prefix
        | cons d w' =>
          rw [List.cons_prefix_cons] at hp
          exact absurd hp.1 (hw d (List.mem_cons_self d w'))
      · rw [if_neg hc] at hp
        cases w with
        | nil => exact List.nil_prefix
        | cons d w' =>
          rw [List.cons_prefix_cons] at hp ⊢
          refine ⟨hp.1, ih rest (by simp only [List.length_cons] at ht; omega) w'
            (fun a ha => hw a (List.mem_cons_of_mem d ha)) hp.2⟩

theorem prefix_of_removePunct (t : List Char) {w : List Char}
    (hw : ∀ a ∈ w, a ≠ ' ') (hp : w <+: removePunct t) : w <+: t :=
  prefix_of_removePunct_aux t.length t le_rfl w hw hp

theorem urlMatch_transfer {c : Char} {X R : List Char}
    (hpre : ∀ w : List Char, (∀ a ∈ w, a ≠ ' ') → w <+: X → w <+: R)
    (hs : (urlMatchLen (c :: X)).isSome = true) :
    (urlMatchLen (c :: R)).isSome = true := by
  obtain ⟨d, r, hd, hcase | hcase⟩ := urlMatch_some_shape hs
  · simp only [List.cons.injEq] at hcase
    obtain ⟨rfl, hX⟩ := hcase
    have hw : ∀ a ∈ ['t', 't', 'p', 's', ':', '/', '/', d], a ≠ ' ' := by
      intro a ha
      simp only [List.mem_cons, List.not_mem_nil, or_false] at ha
      rcases ha with rfl | rfl | rfl | rfl | rfl | rfl | rfl | rfl <;>
        first | decide | exact not_space_of_not_spaceRE hd
    have hpX : ['t', 't', 'p', 's', ':', '/', '/', d] <+: X := ⟨r, by rw [hX]; rfl⟩
    obtain ⟨r₃, hr⟩ := hpre _ hw hpX
    rw [show R = 't' :: 't' :: 'p' :: 's' :: ':' :: '/' :: '/' :: d :: r₃ from by
      rw [← hr]; rfl]
    exact urlMatch_shape_some_https hd
  · simp only [List.cons.injEq] at hcase
    obtain ⟨rfl, hX⟩ := hcase
    have hw : ∀ a ∈ ['t', 't', 'p', ':', '/', '/', d], a ≠ ' ' := by
      intro a ha
      simp only [List.mem_cons, List.not_mem_nil, or_false] at ha
      rcases ha with rfl | rfl | rfl | rfl | rfl | rfl | rfl <;>
        first | decide | exact not_space_of_not_spaceRE hd
    have hpX : ['t', 't', 'p', ':', '/', '/', d] <+: X := ⟨r, by rw [hX]; rfl⟩
    obtain ⟨r₃, hr⟩ := hpre _ hw hpX
    rw [show R = 't' :: 't' :: 'p' :: ':' :: '/' :: '/' :: d :: r₃ from by
      rw [← hr]; rfl]
    exact urlMatch_shape_some_http hd

theorem noUrl_tail {c : Char} {t : List Char}
    (h : ∀ i, urlMatchLen ((c :: t).drop i) = none) :
    ∀ i, urlMatchLen (t.drop i) = none := by
  intro i
  have := h (i + 1)
  rwa [List.drop_succ_cons] at this

theorem noUrl_suffix {s t : List Char} (hs : s <:+ t)
    (h : ∀ i, urlMatchLen (t.drop i) = none) :
    ∀ i, urlMatchLen (s.drop i) = none := by
  obtain ⟨u, rfl⟩ := hs
  intro i
  have h' := h (u.length + i)
  rwa [show (u ++ s).drop (u.length + i) = s.drop i from by
    rw [← List.drop_drop, List.drop_left]] at h'

theorem removeURLs_noUrl_aux : ∀ n t, t.length ≤ n →
    ∀ i, urlMatchLen ((removeURLs t).drop i) = none := by
  intro n
  induction n with
  | zero =>
    intro t ht i
    rw [List.eq_nil_of_length_eq_zero (Nat.le_zero.mp ht), removeURLs_nil]
    cases i <;> rfl
  | succ n ih =>
    intro t ht i
    cases t with
    | nil =>
      rw [removeURLs_nil]
      cases i <;> rfl
    | cons c rest =>
      rw [removeURLs_cons]
      cases hm : urlMatchLen (c :: rest) with
      | some m =>
        have hge := urlMatchLen_ge hm
        cases i with
        | zero => exact urlMatchLen_space _
        | succ j =>
          rw [List.drop_succ_cons]
          exact ih ((c :: rest).drop m)
            (by simp only [List.length_drop, List.length_cons] at ht ⊢; omega) j
      | none =>
        cases i with
        | succ j =>
          rw [List.drop_succ_cons]
          exact ih rest (by simp only [List.length_cons] at ht; omega) j
        | zero =>
          rw [List.drop_zero]
          cases hm2 : urlMatchLen (c :: removeURLs rest) with
          | none => rfl
          | some k =>
            exfalso
            have hs : (urlMatchLen (c :: removeURLs rest)).isSome = true := by
              rw [hm2]; rfl
            have htr := urlMatch_transfer
              (fun w hw hp => prefix_of_removeURLs rest hw hp) hs
            rw [hm] at htr
            simp at htr

theorem removeURLs_noUrl (t : List Char) :
    ∀ i, urlMatchLen ((removeURLs t).drop i) = none :=
  removeURLs_noUrl_aux t.length t le_rfl

theorem removePunct_noUrl_aux : ∀ n t, t.length ≤ n →
    (∀ i, urlMatchLen (t.drop i) = none) →
    ∀ i, urlMatchLen ((removePunct t).drop i) = none := by
  intro n
  induction n with
  | zero =>
    intro t ht _ i
    rw [List.eq_nil_of_length_eq_zero (Nat.le_zero.mp ht), removePunct_nil]
    cases i <;> rfl
  | succ n ih =>
    intro t ht hnu i
    cases t with
    | nil =>
      rw [removePunct_nil]
      cases i <;> rfl
    | cons c rest =>
      rw [removePunct_cons]
      by_cases hc : punctChar c = true
      · rw [if_pos hc]
        cases i with
        | zero => exact urlMatchLen_space _
        | succ j =>
          rw [List.drop_succ_cons]
          have hsub := (List.dropWhile_suffix (l := rest) punctChar)
          refine ih (rest.dropWhile punctChar)
            ?_ (noUrl_suffix hsub (noUrl_tail hnu)) j
          have := hsub.length_le
          simp only [List.length_cons] at ht
          omega
      · rw [if_neg hc]
        cases i with
        | succ j =>
          rw [List.drop_succ_cons]
          exact ih rest (by simp only [List.length_cons] at ht; omega)
            (noUrl_tail hnu) j
        | zero =>
          rw [List.drop_zero]
          cases hm2 : urlMatchLen (c :: removePunct rest) with
          | none => rfl
          | some k =>
            exfalso
            have hs : (urlMatchLen (c :: removePunct rest)).isSome = true := by
              rw [hm2]; rfl
            have htr := urlMatch_transfer
              (fun w hw hp => prefix_of_removePunct rest hw hp) hs
            have h0 := hnu 0
            rw [List.drop_zero] at h0
            rw [h0] at htr
            simp at htr

theorem removePunct_noUrl {t : List Char} (h : ∀ i, urlMatchLen (t.drop i) = none) :
    ∀ i, urlMatchLen ((removePunct t).drop i) = none :=
  removePunct_noUrl_aux t.length t le_rfl h

theorem removeURLs_id_aux : ∀ n t, t.length ≤ n →
    (∀ i, urlMatchLen (t.drop i) = none) → removeURLs t = t := by
  intro n
  induction n with
  | zero =>
    intro t ht _
    rw [List.eq_nil_of_length_eq_zero (Nat.le_zero.mp ht)]
    rfl
  | succ n ih =>
    intro t ht hnu
    cases t with
    | nil => rfl
    | cons c rest =>
      rw [removeURLs_cons]
      have h0 := hnu 0
      rw [List.drop_zero] at h0
      rw [h0]
      rw [ih rest (by simp only [List.length_cons] at ht; omega) (noUrl_tail hnu)]

theorem removeURLs_id {t : List Char} (h : ∀ i, urlMatchLen (t.drop i) = none) :
    removeURLs t = t :=
  removeURLs_id_aux t.length t le_rfl h

theorem removePunct_id_aux : ∀ n t, t.length ≤ n →
    (∀ c ∈ t, punctChar c = false) → removePunct t = t := by
  intro n
  induction n with
  | zero =>
    intro t ht _
    rw [List.eq_nil_of_length_eq_zero (Nat.le_zero.mp ht)]
    rfl
  | succ n ih =>
    intro t ht hc
    cases t with
    | nil => rfl
    | cons c rest =>
      rw [removePunct_cons]
      rw [if_neg (by simp [hc c (List.mem_cons_self c rest)])]
      rw [ih rest (by simp only [List.length_cons] at ht; omega)
        (fun a ha => hc a (List.mem_cons_of_mem c ha))]

theorem removePunct_id {t : List Char} (h : ∀ c ∈ t, punctChar c = false) :
    removePunct t = t :=
  removePunct_id_aux t.length t le_rfl h

theorem removeURLs_mem_aux : ∀ n t, t.length ≤ n →
    ∀ c : Char, c ∈ removeURLs t → c ∈ t ∨ c = ' ' := by
  intro n
  induction n with
  | zero =>
    intro t ht c hc
    rw [List.eq_nil_of_length_eq_zero (Nat.le_zero.mp ht), removeURLs_nil] at hc
    simp at hc
  | succ n ih =>
    intro t ht c hc
    cases t with
    | nil => rw [removeURLs_nil] at hc; simp at hc
    | cons d rest =>
      rw [removeURLs_cons] at hc
      cases hm : urlMatchLen (d :: rest) with
      | some m =>
        have hge := urlMatchLen_ge hm
        rw [hm] at hc
        rcases List.mem_cons.mp hc with rfl | hc'
        · exact Or.inr rfl
        · rcases ih ((d :: rest).drop m)
            (by simp only [List.length_drop, List.length_cons] at ht ⊢; omega) c hc' with
            h' | h'
          · exact Or.inl (List.drop_subset _ _ h')
          · exact Or.inr h'
      | none =>
        rw [hm] at hc
        rcases List.mem_cons.mp hc with rfl | hc'
        · exact Or.inl (List.mem_cons_self _ _)
        · rcases ih rest (by simp only [List.length_cons] at ht; omega) c hc' with h' | h'
          · exact Or.inl (List.mem_cons_of_mem _ h')
          · exact Or.inr h'

theorem removeURLs_mem {t : List Char} {c : Char} (h : c ∈ removeURLs t) :
    c ∈ t ∨ c = ' ' :=
  removeURLs_mem_aux t.length t le_rfl c h

theorem removePunct_mem_aux : ∀ n t, t.length ≤ n →
    ∀ c : Char, c ∈ removePunct t → (c ∈ t ∨ c = ' ') ∧ punctChar c = false := by
  intro n
  induction n with
  | zero =>
    intro t ht c hc
    rw [List.eq_nil_of_length_eq_zero (Nat.le_zero.mp ht), removePunct_nil] at hc
    simp at hc
  | succ n ih =>
    intro t ht c hc
    cases t with
    | nil => rw [removePunct_nil] at hc; simp at hc
    | cons d rest =>
      rw [removePunct_cons] at hc
      by_cases hd : punctChar d = true
      · rw [if_pos hd] at hc
        rcases List.mem_cons.mp hc with rfl | hc'
        · exact ⟨Or.inr rfl, by decide⟩
        · have hsub := (List.dropWhile_suffix (l := rest) punctChar)
          have hlen : (rest.dropWhile punctChar).length ≤ n := by
            have := hsub.length_le
            simp only [List.length_cons] at ht
            omega
          rcases ih (rest.dropWhile punctChar) hlen c hc' with ⟨h' | h', hpc⟩
          · exact ⟨Or.inl (List.mem_cons_of_mem _ (hsub.subset h')), hpc⟩
          · exact ⟨Or.inr h', hpc⟩
      · rw [if_neg hd] at hc
        rcases List.mem_cons.mp hc with rfl | hc'
        · exact ⟨Or.inl (List.mem_cons_self _ _), by simp [hd]⟩
        · rcases ih rest (by simp only [List.length_cons] at ht; omega) c hc' with
            ⟨h' | h', hpc⟩
          · exact ⟨Or.inl (List.mem_cons_of_mem _ h'), hpc⟩
          · exact ⟨Or.inr h', hpc⟩

theorem removePunct_mem {t : List Char} {c : Char} (h : c ∈ removePunct t) :
    (c ∈ t ∨ c = ' ') ∧ punctChar c = false :=
  removePunct_mem_aux t.length t le_rfl c h

theorem fields_words_aux : ∀ n t, t.length ≤ n →
    ∀ m ∈ fields t, m ≠ [] ∧ ∀ c ∈ m, isSpaceChar c = false := by
  intro n
  induction n with
  | zero =>
    intro t ht m hm
    rw [List.eq_nil_of_length_eq_zero (Nat.le_zero.mp ht), fields_nil] at hm
    simp at hm
  | succ n ih =>
    intro t ht m hm
    cases t with
    | nil => rw [fields_nil] at hm; simp at hm
    | cons c rest =>
      rw [fields_cons] at hm
      by_cases hc : isSpaceChar c = true
      · rw [if_pos hc] at hm
        exact ih rest (by simp only [List.length_cons] at ht; omega) m hm
      · rw [if_neg hc] at hm
        rcases List.mem_cons.mp hm with rfl | hm'
        · refine ⟨by simp, ?_⟩
          intro a ha
          rcases List.mem_cons.mp ha with rfl | ha'
          · simpa using hc
          · have := List.mem_takeWhile_imp ha'
            simpa using this
        · have hsub := (List.dropWhile_suffix (l := rest) (fun x => ¬ isSpaceChar x))
          refine ih (rest.dropWhile (fun x => ¬ isSpaceChar x)) ?_ m hm'
          have := hsub.length_le
          simp only [List.length_cons] at ht
          omega

theorem fields_words (t : List Char) :
    ∀ m ∈ fields t, m ≠ [] ∧ ∀ c ∈ m, isSpaceChar c = false :=
  fields_words_aux t.length t le_rfl

theorem fields_infixes_aux : ∀ n t, t.length ≤ n → ∀ m ∈ fields t, m <:+: t := by
  intro n
  induction n with
  | zero =>
    intro t ht m hm
    rw [List.eq_nil_of_length_eq_zero (Nat.le_zero.mp ht), fields_nil] at hm
    simp at hm
  | succ n ih =>
    intro t ht m hm
    cases t with
    | nil => rw [fields_nil] at hm; simp at hm
    | cons c rest =>
      rw [fields_cons] at hm
      by_cases hc : isSpaceChar c = true
      · rw [if_pos hc] at hm
        exact List.infix_cons (ih rest (by simp only [List.length_cons] at ht; omega) m hm)
      · rw [if_neg hc] at hm
        rcases List.mem_cons.mp hm with rfl | hm'
        · exact (List.cons_prefix_cons.mpr ⟨rfl, List.takeWhile_prefix _⟩).isInfix
        · have hsub := (List.dropWhile_suffix (l := rest) (fun x => ¬ isSpaceChar x))
          have hlen : (rest.dropWhile (fun x => ¬ isSpaceChar x)).length ≤ n := by
            have := hsub.length_le
            simp only [List.length_cons] at ht
            omega
          exact List.infix_cons ((ih _ hlen m hm').trans hsub.isInfix)

theorem fields_infixes (t : List Char) : ∀ m ∈ fields t, m <:+: t :=
  fields_infixes_aux t.length t le_rfl

theorem takeWhile_append_of_all {p : Char → Bool} :
    ∀ u : List Char, (∀ a ∈ u, p a = true) → ∀ x v, p x = false →
    (u ++ x :: v).takeWhile p = u ∧ (u ++ x :: v).dropWhile p = x :: v := by
  intro u
  induction u with
  | nil =>
    intro _ x v hx
    simp [List.takeWhile_cons, List.dropWhile_cons, hx]
  | cons c u' ih =>
    intro hu x v hx
    have hc : p c = true := hu c (List.mem_cons_self c u')
    obtain ⟨h1, h2⟩ := ih (fun a ha => hu a (List.mem_cons_of_mem c ha)) x v hx
    constructor
    · simp only [List.cons_append, List.takeWhile_cons, hc, if_true, h1]
    · simp only [List.cons_append, List.dropWhile_cons, hc, if_true, h2]

theorem joinSp_cons_cons (m m' : List Char) (ms : List (List Char)) :
    joinSp (m :: m' :: ms) = m ++ ' ' :: joinSp (m' :: ms) := rfl

theorem prefix_space_free {w : List Char} (hw : ∀ a ∈ w, a ≠ ' ') :
    ∀ u z : List Char, w <+: u ++ ' ' :: z → w <+: u := by
  intro u
  induction u generalizing w with
  | nil =>
    intro z hp
    cases w with
    | nil => exact List.nil_prefix
    | cons d w' =>
      rw [List.nil_append, List.cons_prefix_cons] at hp
      exact absurd hp.1 (hw d (List.mem_cons_self d w'))
  | cons c u' ih =>
    intro z hp
    cases w with
    | nil => exact List.nil_prefix
    | cons d w' =>
      rw [List.cons_append, List.cons_prefix_cons] at hp
      exact List.cons_prefix_cons.mpr ⟨hp.1,
        ih (fun a ha => hw a (List.mem_cons_of_mem d ha)) z hp.2⟩

theorem infix_space_split {w : List Char} (hw : ∀ a ∈ w, a ≠ ' ') (hne : w ≠ []) :
    ∀ u z : List Char, w <:+: u ++ ' ' :: z → w <:+: u ∨ w <:+: z := by
  intro u
  induction u with
  | nil =>
    intro z h
    rw [List.nil_append, List.infix_cons_iff] at h
    rcases h with h | h
    · cases w with
      | nil => exact absurd rfl hne
      | cons d w' =>
        rw [List.cons_prefix_cons] at h
        exact absurd h.1 (hw d (List.mem_cons_self d w'))
    · exact Or.inr h
  | cons c u' ih =>
    intro z h
    rw [List.cons_append, List.infix_cons_iff] at h
    rcases h with h | h
    · cases w with
      | nil => exact absurd rfl hne
      | cons d w' =>
        rw [List.cons_prefix_cons] at h
        refine Or.inl (List.cons_prefix_cons.mpr ⟨h.1, ?_⟩).isInfix
        exact prefix_space_free (fun a ha => hw a (List.mem_cons_of_mem d ha)) u' z h.2
    · rcases ih z h with h' | h'
      · exact Or.inl (List.infix_cons h')
      · exact Or.inr h'

theorem joinSp_infix {w : List Char} (hne : w ≠ []) (hw : ∀ a ∈ w, a ≠ ' ') :
    ∀ L, w <:+: joinSp L → ∃ m ∈ L, w <:+: m := by
  intro L
  induction L with
  | nil =>
    intro h
    exact absurd (List.eq_nil_of_infix_nil h) hne
  | cons m L' ih =>
    cases L' with
    | nil =>
      intro h
      exact ⟨m, List.mem_cons_self m [], h⟩
    | cons m' ms =>
      intro h
      rw [joinSp_cons_cons] at h
      rcases infix_space_split hw hne m (joinSp (m' :: ms)) h with h' | h'
      · exact ⟨m, List.mem_cons_self m _, h'⟩
      · obtain ⟨mm, hmm, hwmm⟩ := ih h'
        exact ⟨mm, List.mem_cons_of_mem m hmm, hwmm⟩

theorem joinSp_mem : ∀ (L : List (List Char)) (c : Char),
    c ∈ joinSp L → (∃ m ∈ L, c ∈ m) ∨ c = ' ' := by
  intro L
  induction L with
  | nil => intro c hc; simp [joinSp] at hc
  | cons m L' ih =>
    intro c hc
    cases L' with
    | nil => exact Or.inl ⟨m, List.mem_cons_self m [], hc⟩
    | cons m' ms =>
      rw [joinSp_cons_cons] at hc
      rcases List.mem_append.mp hc with hc' | hc'
      · exact Or.inl ⟨m, List.mem_cons_self m _, hc'⟩
      · rcases List.mem_cons.mp hc' with rfl | hc''
        · exact Or.inr rfl
        · rcases ih c hc'' with ⟨mm, hmm, hcm⟩ | rfl
          · exact Or.inl ⟨mm, List.mem_cons_of_mem m hmm, hcm⟩
          · exact Or.inr rfl

theorem fields_joinSp : ∀ L : List (List Char),
    (∀ m ∈ L, m ≠ [] ∧ ∀ c ∈ m, isSpaceChar c = false) →
    fields (joinSp L) = L := by
  intro L
  induction L with
  | nil => intro _; rfl
  | cons m L' ih =>
    intro hL
    obtain ⟨hm, hmc⟩ := hL m (List.mem_cons_self m L')
    obtain ⟨c, mt, rfl⟩ := List.exists_cons_of_ne_nil hm
    have hc : isSpaceChar c = false := hmc c (List.mem_cons_self c mt)
    cases L' with
    | nil =>
      show fields (c :: mt) = [c :: mt]
      rw [fields_cons, if_neg (by simp [hc])]
      rw [List.takeWhile_eq_self_iff.mpr
        (fun a ha => by simp [hmc a (List.mem_cons_of_mem c ha)])]
      rw [List.dropWhile_eq_nil_iff.mpr
        (fun a ha => by simp [hmc a (List.mem_cons_of_mem c ha)])]
      rfl
    | cons m' ms =>
      rw [joinSp_cons_cons, List.cons_append, fields_cons, if_neg (by simp [hc])]
      obtain ⟨htw, hdw⟩ := @takeWhile_append_of_all (fun x => ¬ isSpaceChar x) mt
        (fun a ha => by simp [hmc a (List.mem_cons_of_mem c ha)]) ' '
        (joinSp (m' :: ms)) (by decide)
      rw [htw, hdw, fields_cons, if_pos (by decide)]
      rw [ih (fun mm hmm => hL mm (List.mem_cons_of_mem _ hmm))]

theorem joinSp_ne_nil {m : List Char} {L : List (List Char)} (hm : m ≠ []) :
    joinSp (m :: L) ≠ [] := by
  cases L with
  | nil => exact hm
  | cons m' ms =>
    rw [joinSp_cons_cons]
    intro h
    obtain ⟨c, mt, rfl⟩ := List.exists_cons_of_ne_nil hm
    simp at h

theorem joinSp_reverse_head : ∀ L : List (List Char),
    (∀ m ∈ L, m ≠ [] ∧ ∀ c ∈ m, isSpaceChar c = false) → L ≠ [] →
    ∃ c Y, (joinSp L).reverse = c :: Y ∧ isSpaceChar c = false := by
  intro L
  induction L with
  | nil => intro _ h; exact absurd rfl h
  | cons m L' ih =>
    intro hL _
    obtain ⟨hm, hmc⟩ := hL m (List.mem_cons_self m L')
    cases L' with
    | nil =>
      have hrev : m.reverse ≠ [] := by simpa using hm
      obtain ⟨c, Y, hcy⟩ := List.exists_cons_of_ne_nil hrev
      refine ⟨c, Y, hcy, ?_⟩
      have : c ∈ m.reverse := by rw [hcy]; exact List.mem_cons_self c Y
      exact hmc c (List.mem_reverse.mp this)
    | cons m' ms =>
      obtain ⟨c, Y, hcy, hcns⟩ := ih
        (fun mm hmm => hL mm (List.mem_cons_of_mem _ hmm)) (by simp)
      refine ⟨c, Y ++ ' ' :: m.reverse, ?_, hcns⟩
      rw [joinSp_cons_cons, List.reverse_append, List.reverse_cons, hcy]
      simp

theorem trim_joinSp : ∀ L : List (List Char),
    (∀ m ∈ L, m ≠ [] ∧ ∀ c ∈ m, isSpaceChar c = false) →
    trimSpace (joinSp L) = joinSp L := by
  intro L hL
  cases L with
  | nil => rfl
  | cons m L' =>
    obtain ⟨hm, hmc⟩ := hL m (List.mem_cons_self m L')
    obtain ⟨c, mt, rfl⟩ := List.exists_cons_of_ne_nil hm
    have hc : isSpaceChar c = false := hmc c (List.mem_cons_self c mt)
    have hhead : ∃ Y, joinSp ((c :: mt) :: L') = c :: Y := by
      cases L' with
      | nil => exact ⟨mt, rfl⟩
      | cons m' ms => exact ⟨mt ++ ' ' :: joinSp (m' :: ms), rfl⟩
    obtain ⟨Y, hY⟩ := hhead
    obtain ⟨d, Z, hdz, hdns⟩ := joinSp_reverse_head ((c :: mt) :: L') hL (by simp)
    unfold trimSpace
    rw [hY, List.dropWhile_cons, if_neg (by simp [hc]), ← hY]
    rw [hdz, List.dropWhile_cons, if_neg (by simp [hdns]), ← hdz]
    exact List.reverse_reverse _

/-! ## Aggregation invariants -/

theorem eligibleMsg_false {m : DiscussionMessage}
    (h : m.Body = [] ∨ isBotComment m.Author = true) : eligibleMsg m = false := by
  simp [eligibleMsg, h]

theorem eligibleMsg_true {m : DiscussionMessage}
    (h : ¬ (m.Body = [] ∨ isBotComment m.Author = true)) : eligibleMsg m = true := by
  simp only [eligibleMsg, decide_eq_true_eq, not_or] at *
  refine ⟨h.1, ?_⟩
  simp [h.2]

theorem processMsg_none (p : GeminiParams) (m : DiscussionMessage) :
    processMsg p none m = none := rfl

theorem foldl_processMsg_none (p : GeminiParams) (msgs : List DiscussionMessage) :
    msgs.foldl (processMsg p) none = none := by
  induction msgs with
  | nil => rfl
  | cons m ms ih => rw [List.foldl_cons, processMsg_none, ih]

theorem processMsg_step (p : GeminiParams) (r : HealthReport) (total : ℚ)
    (m : DiscussionMessage) :
    processMsg p (some (r, total)) m = none ∨
    ∃ r' total', processMsg p (some (r, total)) m = some (r', total') ∧
      r'.Messages.length = r.Messages.length + (if eligibleMsg m then 1 else 0) ∧
      r'.PositiveScore + r'.NegativeScore + r'.NeutralScore =
        r.PositiveScore + r.NegativeScore + r.NeutralScore +
          (if eligibleMsg m then 1 else 0) := by
  by_cases h : m.Body = [] ∨ isBotComment m.Author = true
  · right
    rw [eligibleMsg_false h]
    exact ⟨r, total, by simp [processMsg, h], by simp, by simp⟩
  · cases hs : analyzeSentiment p m.Body with
    | none => left; simp [processMsg, h, hs]
    | some sres =>
      right
      rw [eligibleMsg_true h]
      simp only [processMsg, if_neg h, hs, if_true]
      refine ⟨_, _, rfl, by simp, ?_⟩
      set lbl := (if sres.1 = "" then
        if sres.2 > 7/10 then "positive"
        else if sres.2 < 2/5 then "negative"
        else "neutral"
        else sres.1) with hlbl
      by_cases h1 : lbl = "positive" <;> by_cases h2 : lbl = "negative"
      · rw [h1] at h2; exact absurd h2 (by decide)
      · simp [h1, h2]; ring
      · simp [h1, h2]; ring
      · simp [h1, h2]; ring

theorem foldl_processMsg (p : GeminiParams) (msgs : List DiscussionMessage) :
    ∀ (r : HealthReport) (total : ℚ) (r' : HealthReport) (total' : ℚ),
    msgs.foldl (processMsg p) (some (r, total)) = some (r', total') →
    r'.Messages.length = r.Messages.length + (msgs.filter eligibleMsg).length ∧
    r'.PositiveScore + r'.NegativeScore + r'.NeutralScore =
      r.PositiveScore + r.NegativeScore + r.NeutralScore +
        ((msgs.filter eligibleMsg).length : ℚ) := by
  induction msgs with
  | nil =>
    intro r total r' total' h
    rw [List.foldl_nil] at h
    obtain ⟨rfl, -⟩ : r = r' ∧ total = total' := by
      simpa [Prod.ext_iff] using h
    simp
  | cons m ms ih =>
    intro r total r' total' h
    rw [List.foldl_cons] at h
    rcases processMsg_step p r total m with hnone | ⟨r2, t2, heq, hlen, hsum⟩
    · rw [hnone, foldl_processMsg_none] at h
      exact absurd h (by simp)
    · rw [heq] at h
      obtain ⟨hl, hs⟩ := ih r2 t2 r' total' h
      rw [List.filter_cons]
      by_cases he : eligibleMsg m = true
      · rw [he] at hlen hsum
        simp only [if_true] at hlen hsum
        constructor
        · simp only [he, if_true, List.length_cons]
          omega
        · rw [hs, hsum]
          simp only [he, if_true, List.length_cons]
          push_cast
          ring
      · rw [Bool.not_eq_true] at he
        rw [he] at hlen hsum
        simp only [Bool.false_eq_true, if_false, Nat.add_zero, add_zero] at hlen hsum
        constructor
        · simp only [he, Bool.false_eq_true, if_false]
          omega
        · rw [hs, hsum]
          simp [he]

theorem foldl_discussions_none (p : GeminiParams) (ds : List PRDiscussion) :
    ds.foldl (fun a d => d.Messages.foldl (processMsg p) a) none = none := by
  induction ds with
  | nil => rfl
  | cons d ds ih => rw [List.foldl_cons, foldl_processMsg_none, ih]

theorem foldl_discussions (p : GeminiParams) (ds : List PRDiscussion) :
    ∀ (r : HealthReport) (total : ℚ) (r' : HealthReport) (total' : ℚ),
    ds.foldl (fun a d => d.Messages.foldl (processMsg p) a) (some (r, total)) =
      some (r', total') →
    r'.Messages.length = r.Messages.length + eligibleCount ds ∧
    r'.PositiveScore + r'.NegativeScore + r'.NeutralScore =
      r.PositiveScore + r.NegativeScore + r.NeutralScore + (eligibleCount ds : ℚ) := by
  induction ds with
  | nil =>
    intro r total r' total' h
    rw [List.foldl_nil] at h
    obtain ⟨rfl, -⟩ : r = r' ∧ total = total' := by
      simpa [Prod.ext_iff] using h
    simp [eligibleCount]
  | cons d ds ih =>
    intro r total r' total' h
    rw [List.foldl_cons] at h
    have hec : eligibleCount (d :: ds) =
        (d.Messages.filter eligibleMsg).length + eligibleCount ds := by
      simp [eligibleCount]
    cases hin : d.Messages.foldl (processMsg p) (some (r, total)) with
    | none =>
      rw [hin, foldl_discussions_none] at h
      exact absurd h (by simp)
    | some rt1 =>
      obtain ⟨r1, t1⟩ := rt1
      rw [hin] at h
      obtain ⟨hl1, hs1⟩ := foldl_processMsg p d.Messages r total r1 t1 hin
      obtain ⟨hl2, hs2⟩ := ih r1 t1 r' total' h
      refine ⟨by rw [hl2, hl1, hec]; omega, ?_⟩
      rw [hs2, hs1, hec]
      push_cast
      ring

theorem analyzeSentiment_failing (text : List Char) :
    analyzeSentiment failingParams text = some ("neutral", 1/2) := by
  unfold analyzeSentiment analyzeSentimentFull analyzeWithGemini failingParams
  by_cases ht : text = []
  · simp [ht]
  · by_cases hc : cleanTextForAnalysis text = [] <;> simp [ht, hc]

/-! ## Claims -/

/-- C1: the health verdict ladder is evaluated in its fixed priority
order; in particular a report whose negative fraction exceeds 0.5 and
whose positive fraction exceeds 0.7 receives the "needs attention"
verdict, because the negative-fraction rule is checked before the
positive-fraction rule. -/
theorem c1_verdict_priority (r : HealthReport)
    (hneg : r.NegativeScore / (r.MessageCount : ℚ) > 1/2)
    (_hpos : r.PositiveScore / (r.MessageCount : ℚ) > 7/10) :
    healthVerdict r = "Needs attention - High level of negative sentiment" := by
  have hmc : ¬ r.MessageCount = 0 := by
    intro h
    rw [h] at hneg
    norm_num at hneg
  unfold healthVerdict
  rw [if_neg hmc, if_pos hneg]

theorem c1_verdict_priority_witness :
    ((⟨1, 20, 16, 11, 0, 0, []⟩ : HealthReport).NegativeScore /
      (((⟨1, 20, 16, 11, 0, 0, []⟩ : HealthReport).MessageCount : ℚ)) > 1/2) ∧
    ((⟨1, 20, 16, 11, 0, 0, []⟩ : HealthReport).PositiveScore /
      (((⟨1, 20, 16, 11, 0, 0, []⟩ : HealthReport).MessageCount : ℚ)) > 7/10) ∧
    healthVerdict ⟨1, 20, 16, 11, 0, 0, []⟩ =
      "Needs attention - High level of negative sentiment" :=
  ⟨by norm_num, by norm_num,
    c1_verdict_priority ⟨1, 20, 16, 11, 0, 0, []⟩ (by norm_num) (by norm_num)⟩

/-- C2, counterexample: on a report with zero messages,
`displayHealthReport` prints only the early-return banner; in
particular the ladder verdict "No messages to analyze" is not rendered
and no percentage line (let alone a zero one) is rendered, contrary to
the claim. -/
theorem c2_zero_messages_counterexample :
    displayHealthReport ⟨0, 0, 0, 0, 0, 0, []⟩ = [RLine.banner] ∧
    RLine.verdict "No messages to analyze" ∉ displayHealthReport ⟨0, 0, 0, 0, 0, 0, []⟩ ∧
    ∀ k v, RLine.pct k v ∉ displayHealthReport ⟨0, 0, 0, 0, 0, 0, []⟩ := by
  refine ⟨rfl, by decide, ?_⟩
  intro k v h
  simp [displayHealthReport] at h

/-- C2, amended: for every report with zero messages the display
routine takes the early return, rendering exactly the banner
"No messages found to analyze." — no percentage lines and no verdict
line (the zero-message branch of the verdict ladder is unreachable). -/
theorem c2_zero_messages_amended (r : HealthReport) (h : r.MessageCount = 0) :
    displayHealthReport r = [RLine.banner] := by
  unfold displayHealthReport
  rw [if_pos h]

theorem c2_zero_messages_amended_witness :
    (⟨0, 0, 0, 0, 0, 0, []⟩ : HealthReport).MessageCount = 0 ∧
    displayHealthReport ⟨0, 0, 0, 0, 0, 0, []⟩ = [RLine.banner] :=
  ⟨rfl, c2_zero_messages_amended ⟨0, 0, 0, 0, 0, 0, []⟩ rfl⟩

/-- C3: for every text that is empty or cleans to empty, sentiment
classification returns exactly `("neutral", 0.5)` and the external
classifier is not invoked (for any behaviour of the external
collaborators). -/
theorem c3_empty_short_circuit (p : GeminiParams) (text : List Char)
    (h : cleanTextForAnalysis text = []) :
    analyzeSentimentFull p text = some (("neutral", 1/2), false) := by
  unfold analyzeSentimentFull
  by_cases ht : text = []
  · rw [if_pos ht]
  · rw [if_neg ht]
    unfold analyzeWithGemini
    simp [h]

theorem c3_empty_short_circuit_witness :
    cleanTextForAnalysis "```let x := 1```".toList = [] ∧
    analyzeSentimentFull failingParams "```let x := 1```".toList =
      some (("neutral", 1/2), false) :=
  ⟨by decide, c3_empty_short_circuit failingParams "```let x := 1```".toList (by decide)⟩

/-- C7: the full GitHub URL and the short `owner/repo` form of the same
repository parse successfully to the identical owner/repository pair. -/
theorem c7_parse_repo_url :
    ParseRepoURL "https://github.com/golang/go".toList =
      some ("golang".toList, "go".toList) ∧
    ParseRepoURL "golang/go".toList = some ("golang".toList, "go".toList) :=
  ⟨by decide, by decide⟩

/-- C8: an info-command PR count of 150 exceeds the hard maximum of 100
and aborts before any fetch; any requested count at most 100 is never
fatal; the bare-flag sentinel falls back to the documented default 5;
and every out-of-range health limit falls back to the documented
default 5 instead of erroring. -/
theorem c8_limit_handling :
    runAnalyzeEffects true 150 = [InfoEffect.fatalLimit] ∧
    (∀ p : Int, p ≤ 100 → InfoEffect.fatalLimit ∉ runAnalyzeEffects true p) ∧
    determinePRLimit true (-1) = 5 ∧
    (∀ l : Int, l < 1 ∨ l > 20 → runHealthLimit l = 5) := by
  refine ⟨by decide, ?_, by decide, ?_⟩
  · intro p hp
    unfold runAnalyzeEffects determinePRLimit
    by_cases h1 : p = -1
    · simp [h1]
    · simp only [Bool.true_eq_false, if_false, if_neg h1]
      have : ¬ p > 100 := by omega
      rw [if_neg this]
      by_cases h2 : p > 0 <;> simp [h2]
  · intro l hl
    unfold runHealthLimit
    rw [if_pos hl]

theorem c8_limit_handling_witness :
    ((0 : Int) ≤ 100 ∧ InfoEffect.fatalLimit ∉ runAnalyzeEffects true 0) ∧
    (((150 : Int) < 1 ∨ (150 : Int) > 20) ∧ runHealthLimit 150 = 5) :=
  ⟨⟨by decide, c8_limit_handling.2.1 0 (by decide)⟩,
   ⟨by decide, c8_limit_handling.2.2.2 150 (by decide)⟩⟩

/-- C9: every PR produced by the list-view fetch has its `Merged` flag
equal to «state is "closed" and the merged-at timestamp is non-zero»,
and the result of the list-view fetch does not depend on the dedicated
merge-check endpoint that the `IsMerged` helper queries. -/
theorem c9_merged_flag :
    (∀ (api : GitHubAPI) (limit : Nat) (p : PRInfo),
      p ∈ FetchPullRequests api limit →
      ∃ pr ∈ api.pulls, p = mkPRInfo pr ∧
        (p.Merged = true ↔ (pr.state = "closed" ∧ pr.mergedAtIsZero = false))) ∧
    (∀ (api api' : GitHubAPI) (limit : Nat), api.pulls = api'.pulls →
      FetchPullRequests api limit = FetchPullRequests api' limit) := by
  constructor
  · intro api limit p hp
    unfold FetchPullRequests at hp
    obtain ⟨pr, hmem, rfl⟩ := List.mem_map.mp hp
    exact ⟨pr, List.take_subset _ _ hmem, rfl, by simp [mkPRInfo]⟩
  · intro api api' limit h
    unfold FetchPullRequests
    rw [h]

/-- C5, counterexample: the input "abc ```abc```" contains the fenced
code block with content "abc", yet the normalizer's output is exactly
"abc", which does contain the fenced content — the removal deletes the
fenced occurrence, not every copy of the fenced text. -/
theorem c5_fenced_content_counterexample :
    cleanTextForAnalysis "abc ```abc```".toList = "abc".toList ∧
    isSubstr "abc".toList (cleanTextForAnalysis "abc ```abc```".toList) = true :=
  ⟨by decide, by decide⟩

/-- C5, amended: the normalizer removes the fenced occurrence itself:
whenever the input decomposes as `pre ++ fence ++ mid ++ fence ++ post`
with the opening fence the first fence of the input and the closing
fence the first fence after the opening one (no fence occurs in
`pre ++ "``"` or in `mid ++ "``"`), the code-block step replaces the
whole block by one space and continues after it, so the fenced
occurrence never reaches the later steps; the output may still contain
the same character sequence when it also occurs outside the fences. -/
theorem c5_fenced_block_removed (pre mid post : List Char)
    (h1 : isSubstr fence (pre ++ [btick, btick]) = false)
    (h2 : isSubstr fence (mid ++ [btick, btick]) = false) :
    removeCodeBlocks (pre ++ fence ++ mid ++ fence ++ post) =
      pre ++ ' ' :: removeCodeBlocks post ∧
    cleanTextForAnalysis (pre ++ fence ++ mid ++ fence ++ post) =
      trimSpace (joinSp (fields (removePunct (removeURLs (removeInlineCode
        (pre ++ ' ' :: removeCodeBlocks post)))))) := by
  have h1' : ¬ fence <:+: pre ++ [btick, btick] := by
    rw [← isSubstr_iff, h1]
    simp
  have h2' : ¬ fence <:+: mid ++ [btick, btick] := by
    rw [← isSubstr_iff, h2]
    simp
  have hr := removeCodeBlocks_fence pre h1' mid post h2'
  exact ⟨hr, by unfold cleanTextForAnalysis; rw [hr]⟩

theorem c5_fenced_block_removed_witness :
    isSubstr fence ("ab ".toList ++ [btick, btick]) = false ∧
    isSubstr fence ("code x".toList ++ [btick, btick]) = false ∧
    removeCodeBlocks ("ab ".toList ++ fence ++ "code x".toList ++ fence ++ " cd".toList) =
      "ab ".toList ++ ' ' :: removeCodeBlocks " cd".toList :=
  ⟨by decide, by decide,
    (c5_fenced_block_removed "ab ".toList "code x".toList " cd".toList
      (by decide) (by decide)).1⟩

/-- C6, counterexample: the normalizer is not idempotent.  On the
five-character input of two backticks, `b`, two backticks, the
inline-code pass removes the inner span, leaving backtick, space,
backtick — and a second pass removes that remaining span entirely. -/
theorem c6_idempotence_counterexample :
    cleanTextForAnalysis (cleanTextForAnalysis "``b``".toList) ≠
      cleanTextForAnalysis "``b``".toList := by decide

/-- C6, amended: the normalizer is idempotent on every input that
contains no backtick.  (In general it is not: leftover backticks from
partially matched code spans can form new inline-code matches on a
second pass, as the counterexample shows.) -/
theorem c6_idempotent_on_backtick_free (x : List Char)
    (h : ∀ c ∈ x, c ≠ btick) :
    cleanTextForAnalysis (cleanTextForAnalysis x) = cleanTextForAnalysis x := by
  have h1 : removeCodeBlocks x = x := removeCodeBlocks_id x h
  have h2 : removeInlineCode x = x := removeInlineCode_id x h
  set u4 : List Char := removePunct (removeURLs x) with hu4
  set L : List (List Char) := fields u4 with hLdef
  have hnu4 : ∀ i, urlMatchLen (u4.drop i) = none :=
    removePunct_noUrl (removeURLs_noUrl x)
  have hwords : ∀ m ∈ L, m ≠ [] ∧ ∀ c ∈ m, isSpaceChar c = false := fields_words u4
  have hy : cleanTextForAnalysis x = joinSp L := by
    unfold cleanTextForAnalysis
    rw [h1, h2, ← hu4, ← hLdef]
    exact trim_joinSp L hwords
  have hmem : ∀ c ∈ joinSp L, (c ∈ x ∨ c = ' ') ∧ punctChar c = false := by
    intro c hc
    rcases joinSp_mem L c hc with ⟨m, hm, hcm⟩ | rfl
    · have hcu4 : c ∈ u4 := (fields_infixes u4 m hm).subset hcm
      obtain ⟨hcu4', hpc⟩ := removePunct_mem hcu4
      rcases hcu4' with hcu3 | rfl
      · rcases removeURLs_mem hcu3 with hcx | rfl
        · exact ⟨Or.inl hcx, hpc⟩
        · exact ⟨Or.inr rfl, hpc⟩
      · exact ⟨Or.inr rfl, hpc⟩
    · exact ⟨Or.inr rfl, by decide⟩
  have hyb : ∀ c ∈ joinSp L, c ≠ btick := by
    intro c hc
    rcases (hmem c hc).1 with hx | rfl
    · exact h c hx
    · decide
  have hynp : ∀ c ∈ joinSp L, punctChar c = false := fun c hc => (hmem c hc).2
  have hnoY : ∀ i, urlMatchLen ((joinSp L).drop i) = none := by
    intro i
    cases hm : urlMatchLen ((joinSp L).drop i) with
    | none => rfl
    | some k =>
      exfalso
      have hs : (urlMatchLen ((joinSp L).drop i)).isSome = true := by rw [hm]; rfl
      obtain ⟨d, r, hd, hsh | hsh⟩ := urlMatch_some_shape hs
      · have hWpre : ['h', 't', 't', 'p', 's', ':', '/', '/', d] <+: (joinSp L).drop i :=
          ⟨r, by rw [hsh]; rfl⟩
        have hWsf : ∀ a ∈ ['h', 't', 't', 'p', 's', ':', '/', '/', d], a ≠ ' ' := by
          intro a ha
          simp only [List.mem_cons, List.not_mem_nil, or_false] at ha
          rcases ha with rfl | rfl | rfl | rfl | rfl | rfl | rfl | rfl | rfl <;>
            first | decide | exact not_space_of_not_spaceRE hd
        obtain ⟨m, hmL, hWm⟩ := joinSp_infix (by simp) hWsf L
          (hWpre.isInfix.trans (List.drop_suffix i _).isInfix)
        obtain ⟨a, b, hab⟩ := hWm.trans (fields_infixes u4 m hmL)
        have hdrop : u4.drop a.length = ['h', 't', 't', 'p', 's', ':', '/', '/', d] ++ b := by
          rw [← hab, List.append_assoc, List.drop_left]
        have hsome : (urlMatchLen (u4.drop a.length)).isSome = true := by
          rw [hdrop]
          exact urlMatch_shape_some_https hd
        rw [hnu4 a.length] at hsome
        simp at hsome
      · have hWpre : ['h', 't', 't', 'p', ':', '/', '/', d] <+: (joinSp L).drop i :=
          ⟨r, by rw [hsh]; rfl⟩
        have hWsf : ∀ a ∈ ['h', 't', 't', 'p', ':', '/', '/', d], a ≠ ' ' := by
          intro a ha
          simp only [List.mem_cons, List.not_mem_nil, or_false] at ha
          rcases ha with rfl | rfl | rfl | rfl | rfl | rfl | rfl | rfl <;>
            first | decide | exact not_space_of_not_spaceRE hd
        obtain ⟨m, hmL, hWm⟩ := joinSp_infix (by simp) hWsf L
          (hWpre.isInfix.trans (List.drop_suffix i _).isInfix)
        obtain ⟨a, b, hab⟩ := hWm.trans (fields_infixes u4 m hmL)
        have hdrop : u4.drop a.length = ['h', 't', 't', 'p', ':', '/', '/', d] ++ b := by
          rw [← hab, List.append_assoc, List.drop_left]
        have hsome : (urlMatchLen (u4.drop a.length)).isSome = true := by
          rw [hdrop]
          exact urlMatch_shape_some_http hd
        rw [hnu4 a.length] at hsome
        simp at hsome
  rw [hy]
  unfold cleanTextForAnalysis
  rw [removeCodeBlocks_id _ hyb, removeInlineCode_id _ hyb,
    removeURLs_id hnoY, removePunct_id hynp, fields_joinSp L hwords]
  exact trim_joinSp L hwords

theorem c6_idempotent_on_backtick_free_witness :
    (∀ c ∈ "see http://x.y - done".toList, c ≠ btick) ∧
    cleanTextForAnalysis (cleanTextForAnalysis "see http://x.y - done".toList) =
      cleanTextForAnalysis "see http://x.y - done".toList :=
  ⟨by decide, c6_idempotent_on_backtick_free "see http://x.y - done".toList (by decide)⟩

/-- C4, code bug: the claim (and the spec) say that every classifier
failure — explicitly including a malformed or non-JSON response — is
recovered per message as `("neutral", 0.5)` without aborting the run,
and the code clearly intends that (it converts missing braces,
unmarshalling failures, bad labels and out-of-range scores into
returned errors).  But when the response's last `"}"` sits more than
one position before its first `"{"` (failing input: response text
`"}x{"`, giving `jsonStart = 2`, `jsonEnd = 0`), the Go expression
`responseText[jsonStart : jsonEnd+1]` is the slice `"}x{"[2:1]`, which
raises a slice-bounds panic that nothing recovers: the run aborts
instead of recording `("neutral", 0.5)` and continuing.  This theorem
evaluates the model at that failing input: `analyzeWithGemini`
crashes, the per-message fallback is never reached, and the health
aggregation over a single eligible message produces no report at
all. -/
theorem c4_malformed_response_panics :
    analyzeWithGemini crashParams "hello".toList = (GeminiResult.crash, true) ∧
    analyzeSentimentFull crashParams "hello".toList = none ∧
    analyzePRHealth crashParams
      [⟨1, "t".toList, "alice".toList, "open", false,
        [⟨"alice".toList, "hello".toList, [], false⟩]⟩] = none :=
  ⟨by decide, by decide, by decide⟩

/-- C10: whenever the aggregator produces a `HealthReport` (i.e. no
unrecovered classifier panic aborted the run), for every discussion
list and every classifier behaviour the report satisfies
`PositiveScore + NegativeScore + NeutralScore = MessageCount =
length of Messages = number of eligible messages` (nonempty body,
non-bot author): each analyzed message gets exactly one label. -/
theorem c10_aggregation_invariant (p : GeminiParams) (ds : List PRDiscussion)
    (r : HealthReport) (h : analyzePRHealth p ds = some r) :
    r.PositiveScore + r.NegativeScore + r.NeutralScore = (r.MessageCount : ℚ) ∧
    r.MessageCount = r.Messages.length ∧
    r.Messages.length = eligibleCount ds := by
  unfold analyzePRHealth at h
  simp only at h
  split at h
  · exact absurd h (by simp)
  · next r0 t0 heq =>
    simp only [Option.some.injEq] at h
    obtain ⟨hl, hs⟩ := foldl_discussions p ds _ _ _ _ heq
    simp only [List.length_nil, Nat.zero_add] at hl hs
    subst h
    refine ⟨?_, rfl, hl⟩
    simp only
    rw [hs, hl]
    ring

theorem c10_aggregation_invariant_witness :
    analyzePRHealth failingParams
      [⟨1, "t".toList, "bob".toList, "open", false,
        [⟨"dependabot[bot]".toList, "zzz".toList, [], false⟩]⟩] =
      some ⟨1, 0, 0, 0, 0, 0, []⟩ ∧
    ((⟨1, 0, 0, 0, 0, 0, []⟩ : HealthReport).PositiveScore +
        (⟨1, 0, 0, 0, 0, 0, []⟩ : HealthReport).NegativeScore +
        (⟨1, 0, 0, 0, 0, 0, []⟩ : HealthReport).NeutralScore =
      (((⟨1, 0, 0, 0, 0, 0, []⟩ : HealthReport).MessageCount : ℚ)) ∧
    (⟨1, 0, 0, 0, 0, 0, []⟩ : HealthReport).MessageCount =
      (⟨1, 0, 0, 0, 0, 0, []⟩ : HealthReport).Messages.length ∧
    (⟨1, 0, 0, 0, 0, 0, []⟩ : HealthReport).Messages.length =
      eligibleCount
        [⟨1, "t".toList, "bob".toList, "open", false,
          [⟨"dependabot[bot]".toList, "zzz".toList, [], false⟩]⟩]) :=
  ⟨by decide,
    c10_aggregation_invariant failingParams
      [⟨1, "t".toList, "bob".toList, "open", false,
        [⟨"dependabot[bot]".toList, "zzz".toList, [], false⟩]⟩]
      ⟨1, 0, 0, 0, 0, 0, []⟩ (by decide)⟩

theorem c9_merged_flag_witness :
    (mkPRInfo ⟨7, "t".toList, "closed", some ("alice".toList), false⟩ ∈
      FetchPullRequests ⟨[⟨7, "t".toList, "closed", some ("alice".toList), false⟩],
        fun _ => some false⟩ 5) ∧
    ∃ pr ∈ (⟨[⟨7, "t".toList, "closed", some ("alice".toList), false⟩],
        fun _ => some false⟩ : GitHubAPI).pulls,
      mkPRInfo ⟨7, "t".toList, "closed", some ("alice".toList), false⟩ = mkPRInfo pr ∧
      ((mkPRInfo ⟨7, "t".toList, "closed", some ("alice".toList), false⟩).Merged = true ↔
        (pr.state = "closed" ∧ pr.mergedAtIsZero = false)) :=
  ⟨by decide, c9_merged_flag.1 _ 5 _ (by decide)⟩

end RepoDoc
